import Mathlib

/-!
Shallow embedding of the Forgessa SSA middle end (vbcpascal/Forgessa).

Rust sources embedded here: `src/analysis/{cfg,domtree,dom_frontier,phi,
const_prop,natural_loop,loop_invariant,ssa_to_aaa}.rs`,
`src/ir/{panning,insert_block,params}.rs`, `src/ssa.rs`, `src/cli.rs`,
`src/main.rs`.

Modelling conventions:
* Rust `panic!` / `unwrap` failures are modelled by `Option` results
  (`none` = the process aborts).
* `BTreeSet<usize>` is modelled by a strictly sorted `List Nat`
  (`bsInsert`), `BTreeSet<String>` by a sorted `List String`, `BTreeMap`
  by association lists whose keys are inserted in ascending order.
* Machine integers (`usize`, `i64`, `isize`) are modelled by `Nat` / `Int`;
  the code never relies on wrap-around.
-/

namespace Forgessa

/-- Pre-SSA operand (`depile::ir::instr::basic::Operand`, spec section 3):
integer constant, named variable with a signed frame offset, register
reference by producing-instruction index, or a general-purpose register. -/
inductive Operand where
  | Const (value : Int)
  | Var (name : String) (offset : Int)
  | Register (idx : Nat)
  | GP
deriving DecidableEq, Repr

/-- SSA operand (`src/ssa.rs`): a basic operand, a subscripted variable
(subscript `-1` means undefined), or the empty operand `NOpd` used as the
destination of a freshly placed phi placeholder. -/
inductive SSAOpd where
  | Operand (opd : Operand)
  | Subscribed (var : String) (sub : Int)
  | NOpd
deriving DecidableEq, Repr

inductive BranchKind where
  | Unconditional
  | If (opd : SSAOpd)
  | Unless (opd : SSAOpd)
deriving DecidableEq, Repr

structure Branching where
  method : BranchKind
  dest : Nat
deriving DecidableEq, Repr

inductive SSAInterProc where
  | PushParam (opd : SSAOpd)
  | Call (dest : Nat)
deriving DecidableEq, Repr

/-- Phi payload (`src/ssa.rs`): parallel `vars` / `blocks` sequences plus a
single `dest` operand. -/
structure Phi where
  vars : List SSAOpd
  blocks : List Nat
  dest : SSAOpd
deriving DecidableEq, Repr

/-- Instruction over the SSA kind (`depile::ir::Instr<SSAKind>`).  Binary
and unary opcodes and marker payloads are kept opaque as strings: no
embedded rule ever inspects them. -/
inductive SSAInstr where
  | Binary (op : String) (lhs rhs : SSAOpd)
  | Unary (op : String) (operand : SSAOpd)
  | Branch (br : Branching)
  | Load (opd : SSAOpd)
  | Store (data address : SSAOpd)
  | Move (source dest : SSAOpd)
  | Read
  | Write (opd : SSAOpd)
  | WriteLn
  | InterProc (ip : SSAInterProc)
  | Nop
  | Marker (m : String)
  | Extra (phi : Phi)
deriving DecidableEq, Repr

structure SSABlock where
  first_index : Nat
  instructions : List SSAInstr
deriving DecidableEq, Repr

structure SSAFunction where
  parameter_count : Nat
  local_var_count : Nat
  entry_block : Nat
  blocks : List SSABlock
deriving DecidableEq, Repr

structure SSAFunctions where
  functions : List SSAFunction
  entry_function : Nat
deriving DecidableEq, Repr

/-! ### Ordered set / map primitives -/

/-- `BTreeSet<usize>::insert`: sorted, duplicate-free insertion. -/
def bsInsert (x : Nat) : List Nat → List Nat
  | [] => [x]
  | y :: ys => if x < y then x :: y :: ys else if x = y then y :: ys else y :: bsInsert x ys

theorem mem_bsInsert {x y : Nat} {s : List Nat} : x ∈ bsInsert y s ↔ x = y ∨ x ∈ s := by
  induction s with
  | nil => simp [bsInsert]
  | cons z zs ih =>
    rw [bsInsert]
    by_cases h1 : y < z
    · rw [if_pos h1]
      simp [List.mem_cons]
    · rw [if_neg h1]
      by_cases h2 : y = z
      · rw [if_pos h2]
        subst h2
        simp only [List.mem_cons]
        tauto
      · rw [if_neg h2]
        simp only [List.mem_cons, ih]
        tauto

/-- `BTreeMap` insertion for an association list: replace the binding if
the key is present, otherwise append it. -/
def assocInsert {α β : Type} [DecidableEq α] : List (α × β) → α → β → List (α × β)
  | [], k, v => [(k, v)]
  | (k0, v0) :: rest, k, v =>
    if k0 = k then (k, v) :: rest else (k0, v0) :: assocInsert rest k v

/-! ### Constant propagation (`src/analysis/const_prop.rs`) -/

/-- The accumulator loop of `check_vars_in_phi`.  The outer `none` models a
panic (either the `_ => panic!("error phi")` arm or the final
`curr.unwrap()`); `some none` / `some (some c)` model the Rust returns
`None` / `Some(c)`. -/
def checkVarsGo : List SSAOpd → Option Int → Option (Option SSAOpd)
  | [], curr =>
    match curr with
    | some c => some (some (.Operand (.Const c)))
    | none => none
  | v :: rest, curr =>
    match v with
    | .Operand (.Const i) =>
      match curr with
      | none => checkVarsGo rest (some i)
      | some c => if c = i then checkVarsGo rest (some c) else some none
    | .Subscribed _ index => if 0 ≤ index then some none else checkVarsGo rest curr
    | _ => none

/-- `check_vars_in_phi` (src/analysis/const_prop.rs, lines 169-186). -/
def check_vars_in_phi (vars : List SSAOpd) : Option (Option SSAOpd) :=
  checkVarsGo vars none

/-- `ConstProp` state: the rewrite counter and the `const_elements` map. -/
structure ConstProp where
  count : Nat
  const_elements : List (SSAOpd × SSAOpd)
deriving DecidableEq, Repr

def ConstProp.new : ConstProp := ⟨0, []⟩

/-- `ConstProp::check_subst`: if the operand is a key of `const_elements`,
replace it by its image and bump the counter, reporting `true`. -/
def ConstProp.check_subst (cp : ConstProp) (opd : SSAOpd) : SSAOpd × ConstProp × Bool :=
  match cp.const_elements.lookup opd with
  | some v => (v, { cp with count := cp.count + 1 }, true)
  | none => (opd, cp, false)

def ConstProp.insert (cp : ConstProp) (opd opd_const : SSAOpd) : ConstProp :=
  { cp with const_elements := assocInsert cp.const_elements opd opd_const }

def as_constant (opd : SSAOpd) : Option SSAOpd :=
  match opd with
  | .Operand (.Const _) => some opd
  | _ => none

/-- The phi-argument rewriting loop
`for var in vars.iter_mut() { changed |= cp.check_subst(var); }`. -/
def rewriteVars (cp : ConstProp) : List SSAOpd → List SSAOpd × ConstProp × Bool
  | [] => ([], cp, false)
  | v :: rest =>
    let r1 := cp.check_subst v
    let r2 := rewriteVars r1.2.1 rest
    (r1.1 :: r2.1, r2.2.1, r1.2.2 || r2.2.2)

/-- `impl Substitutable for IdxInstr` (src/analysis/const_prop.rs, lines
103-159).  Rust's short-circuiting `||` between the two `check_subst`
calls of the `Binary` and `Store` arms is preserved; `none` models the
panic reachable through `check_vars_in_phi`. -/
def SSAInstr.subst_cp : SSAInstr → ConstProp → Option (SSAInstr × ConstProp × Bool)
  | .Binary op lhs rhs, cp =>
    let r1 := cp.check_subst lhs
    if r1.2.2 then some (.Binary op r1.1 rhs, r1.2.1, true)
    else
      let r2 := r1.2.1.check_subst rhs
      some (.Binary op r1.1 r2.1, r2.2.1, r2.2.2)
  | .Unary op o, cp =>
    let r := cp.check_subst o
    some (.Unary op r.1, r.2.1, r.2.2)
  | .Branch br, cp =>
    match br.method with
    | .If o =>
      let r := cp.check_subst o
      some (.Branch ⟨.If r.1, br.dest⟩, r.2.1, r.2.2)
    | .Unless o =>
      let r := cp.check_subst o
      some (.Branch ⟨.Unless r.1, br.dest⟩, r.2.1, r.2.2)
    | .Unconditional => some (.Branch br, cp, false)
  | .Load o, cp =>
    let r := cp.check_subst o
    some (.Load r.1, r.2.1, r.2.2)
  | .Store d a, cp =>
    let r1 := cp.check_subst d
    if r1.2.2 then some (.Store r1.1 a, r1.2.1, true)
    else
      let r2 := r1.2.1.check_subst a
      some (.Store r1.1 r2.1, r2.2.1, r2.2.2)
  | .Move src dst, cp =>
    let r1 := cp.check_subst src
    match as_constant r1.1 with
    | some _ => some (.Nop, r1.2.1.insert dst r1.1, true)
    | none => some (.Move r1.1 dst, r1.2.1, r1.2.2)
  | .Read, cp => some (.Read, cp, false)
  | .Write o, cp =>
    let r := cp.check_subst o
    some (.Write r.1, r.2.1, r.2.2)
  | .WriteLn, cp => some (.WriteLn, cp, false)
  | .InterProc ip, cp =>
    match ip with
    | .PushParam o =>
      let r := cp.check_subst o
      some (.InterProc (.PushParam r.1), r.2.1, r.2.2)
    | .Call d => some (.InterProc (.Call d), cp, false)
  | .Nop, cp => some (.Nop, cp, false)
  | .Marker m, cp => some (.Marker m, cp, false)
  | .Extra p, cp =>
    let r := rewriteVars cp p.vars
    match check_vars_in_phi r.1 with
    | none => none
    | some (some opd) => some (.Nop, r.2.1.insert p.dest opd, true)
    | some none => some (.Extra ⟨r.1, p.blocks, p.dest⟩, r.2.1, r.2.2)

/-! Helper lemmas about `checkVarsGo`. -/

theorem checkVarsGo_const (c : Int) (vars : List SSAOpd)
    (h : ∀ v ∈ vars, v = .Operand (.Const c) ∨ ∃ n, v = .Subscribed n (-1)) :
    checkVarsGo vars (some c) = some (some (.Operand (.Const c))) := by
  induction vars with
  | nil => rfl
  | cons v rest ih =>
    rcases h v (by simp) with hv | ⟨n, hv⟩
    · subst hv
      simp only [checkVarsGo, if_pos rfl]
      exact ih (fun w hw => h w (by simp [hw]))
    · subst hv
      simp only [checkVarsGo]
      norm_num
      exact ih (fun w hw => h w (by simp [hw]))

theorem checkVarsGo_none_of_mem (c : Int) (vars : List SSAOpd)
    (h : ∀ v ∈ vars, v = .Operand (.Const c) ∨ ∃ n, v = .Subscribed n (-1))
    (hmem : (SSAOpd.Operand (.Const c)) ∈ vars) :
    checkVarsGo vars none = some (some (.Operand (.Const c))) := by
  induction vars with
  | nil => simp at hmem
  | cons v rest ih =>
    rcases h v (by simp) with hv | ⟨n, hv⟩
    · subst hv
      simp only [checkVarsGo]
      exact checkVarsGo_const c rest (fun w hw => h w (by simp [hw]))
    · subst hv
      simp only [checkVarsGo]
      norm_num
      refine ih (fun w hw => h w (by simp [hw])) ?_
      simpa using hmem

theorem checkVarsGo_allNeg (vars : List SSAOpd)
    (h : ∀ v ∈ vars, ∃ n s, v = .Subscribed n s ∧ s < 0) :
    ∀ curr, curr = none → checkVarsGo vars curr = none := by
  induction vars with
  | nil => intro curr hc; subst hc; rfl
  | cons v rest ih =>
    intro curr hc
    subst hc
    obtain ⟨n, s, hv, hs⟩ := h v (by simp)
    subst hv
    simp only [checkVarsGo, if_neg (by omega : ¬ (0 : Int) ≤ s)]
    exact ih (fun w hw => h w (by simp [hw])) none rfl

/-- C5: phi collapse on a rewritten argument vector made of copies of one
constant `c` plus undefined (`-1`-subscribed) operands yields `Const c`,
records `dest → Const c` and replaces the phi with `Nop`; in particular
`check_vars_in_phi` on three copies of `Const 4` and one `Subscribed "v" (-1)`
yields `Const 4`. -/
theorem C5_phi_collapse :
    (∀ (cp : ConstProp) (vars : List SSAOpd) (blocks : List Nat) (dest : SSAOpd) (c : Int),
      (∀ v ∈ (rewriteVars cp vars).1, v = .Operand (.Const c) ∨ ∃ n, v = .Subscribed n (-1)) →
      (SSAOpd.Operand (.Const c)) ∈ (rewriteVars cp vars).1 →
      SSAInstr.subst_cp (.Extra ⟨vars, blocks, dest⟩) cp =
        some (.Nop, ((rewriteVars cp vars).2.1).insert dest (.Operand (.Const c)), true))
    ∧ check_vars_in_phi
        [.Operand (.Const 4), .Operand (.Const 4), .Operand (.Const 4),
         .Subscribed "v" (-1)] = some (some (.Operand (.Const 4))) := by
  constructor
  · intro cp vars blocks dest c hall hmem
    have hcheck : check_vars_in_phi (rewriteVars cp vars).1 =
        some (some (.Operand (.Const c))) :=
      checkVarsGo_none_of_mem c _ hall hmem
    simp only [SSAInstr.subst_cp, hcheck]
  · rfl

/-- Witness for C5 at the scenario input. -/
theorem C5_phi_collapse_witness :
    SSAInstr.subst_cp
      (.Extra ⟨[.Operand (.Const 4), .Operand (.Const 4), .Operand (.Const 4),
                .Subscribed "v" (-1)], [0, 1, 2, 3], .Subscribed "x" 3⟩)
      ConstProp.new =
      some (.Nop,
        ((rewriteVars ConstProp.new
            [.Operand (.Const 4), .Operand (.Const 4), .Operand (.Const 4),
             .Subscribed "v" (-1)]).2.1).insert (.Subscribed "x" 3)
          (.Operand (.Const 4)), true) :=
  C5_phi_collapse.1 ConstProp.new _ [0, 1, 2, 3] (.Subscribed "x" 3) 4
    (by
      intro v hv
      have e : (rewriteVars ConstProp.new
          [.Operand (.Const 4), .Operand (.Const 4), .Operand (.Const 4),
           .Subscribed "v" (-1)]).1 =
          [.Operand (.Const 4), .Operand (.Const 4), .Operand (.Const 4),
           .Subscribed "v" (-1)] := rfl
      rw [e] at hv
      fin_cases hv
      · left; rfl
      · left; rfl
      · left; rfl
      · right; exact ⟨"v", rfl⟩)
    (by
      have e : (rewriteVars ConstProp.new
          [.Operand (.Const 4), .Operand (.Const 4), .Operand (.Const 4),
           .Subscribed "v" (-1)]).1 =
          [.Operand (.Const 4), .Operand (.Const 4), .Operand (.Const 4),
           .Subscribed "v" (-1)] := rfl
      rw [e]
      simp)

/-- C10: `check_vars_in_phi` panics (unwrap of `None`) on an empty vector or
one whose elements are all negative-subscript `Subscribed` operands, and the
phi arm of constant propagation propagates that panic. -/
theorem C10_check_vars_partial :
    (∀ vars : List SSAOpd,
      (∀ v ∈ vars, ∃ n s, v = .Subscribed n s ∧ s < 0) →
      check_vars_in_phi vars = none)
    ∧ (∀ (cp : ConstProp) (p : Phi),
      (∀ v ∈ (rewriteVars cp p.vars).1, ∃ n s, v = .Subscribed n s ∧ s < 0) →
      SSAInstr.subst_cp (.Extra p) cp = none) := by
  constructor
  · intro vars h
    exact checkVarsGo_allNeg vars h none rfl
  · intro cp p h
    have hcheck : check_vars_in_phi (rewriteVars cp p.vars).1 = none :=
      checkVarsGo_allNeg _ h none rfl
    simp only [SSAInstr.subst_cp, hcheck]

/-- Witness for C10: a phi whose single rewritten argument is undefined. -/
theorem C10_check_vars_partial_witness :
    check_vars_in_phi [.Subscribed "v" (-1)] = none :=
  C10_check_vars_partial.1 [.Subscribed "v" (-1)]
    (by
      intro v hv
      simp only [List.mem_singleton] at hv
      exact ⟨"v", -1, by rw [hv], by norm_num⟩)

/-! ### Loop-invariant code motion helpers (`src/analysis/loop_invariant.rs`) -/

/-- `BTreeSet<SSAOpd>` insertion; only membership matters downstream, so the
set is a duplicate-free list in insertion order. -/
def opdInsert (x : SSAOpd) (s : List SSAOpd) : List SSAOpd :=
  if x ∈ s then s else s ++ [x]

theorem mem_opdInsert {x y : SSAOpd} {s : List SSAOpd} :
    x ∈ opdInsert y s ↔ x = y ∨ x ∈ s := by
  unfold opdInsert
  by_cases h : y ∈ s
  · rw [if_pos h]
    constructor
    · tauto
    · rintro (rfl | hx)
      · exact h
      · exact hx
  · rw [if_neg h]
    simp only [List.mem_append, List.mem_singleton]
    tauto

/-- The body of `helper::get_defs`: walk the block's instructions carrying
the running global instruction index, inserting `Register(index)` for every
instruction plus the destinations of `Move` and `Phi`. -/
def getDefsGo : Nat → List SSAInstr → List SSAOpd → List SSAOpd
  | _, [], defs => defs
  | idx, instr :: rest, defs =>
    let defs1 := opdInsert (.Operand (.Register idx)) defs
    let defs2 := match instr with
      | .Move _ dest => opdInsert dest defs1
      | .Extra p => opdInsert p.dest defs1
      | _ => defs1
    getDefsGo (idx + 1) rest defs2

/-- `helper::get_defs` (src/analysis/loop_invariant.rs, lines 154-167). -/
def get_defs (block : SSABlock) (defs : List SSAOpd) : List SSAOpd :=
  getDefsGo block.first_index block.instructions defs

/-- `LoopInVariant::check_invariant_instr` (src/analysis/loop_invariant.rs,
lines 130-144).  `decide (x ∈ defs)` models `defs.contains(x)`. -/
def check_invariant_instr (instr : SSAInstr) (defs : List SSAOpd) : Bool :=
  match instr with
  | .Binary _ lhs rhs => !(decide (lhs ∈ defs)) && !(decide (rhs ∈ defs))
  | .Unary _ operand => !(decide (operand ∈ defs))
  | .Load opd => !(decide (opd ∈ defs))
  | .Store data address => !(decide (data ∈ defs)) && !(decide (address ∈ defs))
  | .Move source dest => !(decide (source ∈ defs)) && !(decide (dest ∈ defs))
  | _ => false

theorem exists_shift_reg (idx len : Nat) (x : SSAOpd) :
    (∃ k, k < len + 1 ∧ x = .Operand (.Register (idx + k)))
      ↔ (x = .Operand (.Register idx) ∨ ∃ k, k < len ∧ x = .Operand (.Register (idx + 1 + k))) := by
  constructor
  · rintro ⟨k, hk, rfl⟩
    cases k with
    | zero => left; rfl
    | succ k =>
      right
      exact ⟨k, by omega, by rw [show idx + 1 + k = idx + (k + 1) by omega]⟩
  · rintro (rfl | ⟨k, hk, rfl⟩)
    · exact ⟨0, by omega, rfl⟩
    · exact ⟨k + 1, by omega, by rw [show idx + (k + 1) = idx + 1 + k by omega]⟩

theorem exists_shift_move (instr : SSAInstr) (rest : List SSAInstr) (x : SSAOpd) :
    (∃ k src, (instr :: rest).get? k = some (.Move src x))
      ↔ ((∃ src, instr = .Move src x) ∨ ∃ k src, rest.get? k = some (.Move src x)) := by
  constructor
  · rintro ⟨k, src, hk⟩
    cases k with
    | zero => left; exact ⟨src, by simpa using hk⟩
    | succ k => right; exact ⟨k, src, by simpa using hk⟩
  · rintro (⟨src, h⟩ | ⟨k, src, h⟩)
    · exact ⟨0, src, by simp [h]⟩
    · exact ⟨k + 1, src, by simpa using h⟩

theorem exists_shift_extra (instr : SSAInstr) (rest : List SSAInstr) (x : SSAOpd) :
    (∃ k p, (instr :: rest).get? k = some (.Extra p) ∧ x = p.dest)
      ↔ ((∃ p, instr = .Extra p ∧ x = p.dest)
          ∨ ∃ k p, rest.get? k = some (.Extra p) ∧ x = p.dest) := by
  constructor
  · rintro ⟨k, p, hk, hx⟩
    cases k with
    | zero => left; exact ⟨p, by simpa using hk, hx⟩
    | succ k => right; exact ⟨k, p, by simpa using hk, hx⟩
  · rintro (⟨p, h, hx⟩ | ⟨k, p, h, hx⟩)
    · exact ⟨0, p, by simp [h], hx⟩
    · exact ⟨k + 1, p, by simpa using h, hx⟩

theorem mem_defs2 (instr : SSAInstr) (y : SSAOpd) (defs1 : List SSAOpd) :
    y ∈ (match instr with
          | .Move _ dest => opdInsert dest defs1
          | .Extra p => opdInsert p.dest defs1
          | _ => defs1)
      ↔ ((∃ src, instr = .Move src y) ∨ (∃ p, instr = .Extra p ∧ y = p.dest) ∨ y ∈ defs1) := by
  cases instr <;> simp [mem_opdInsert, eq_comm]

theorem mem_getDefsGo (x : SSAOpd) :
    ∀ (instrs : List SSAInstr) (idx : Nat) (defs : List SSAOpd),
    x ∈ getDefsGo idx instrs defs ↔
      x ∈ defs
      ∨ (∃ k, k < instrs.length ∧ x = .Operand (.Register (idx + k)))
      ∨ (∃ k src, instrs.get? k = some (.Move src x))
      ∨ (∃ k p, instrs.get? k = some (.Extra p) ∧ x = p.dest) := by
  intro instrs
  induction instrs with
  | nil =>
    intro idx defs
    simp [getDefsGo]
  | cons instr rest ih =>
    intro idx defs
    rw [show getDefsGo idx (instr :: rest) defs =
        getDefsGo (idx + 1) rest
          (match instr with
            | .Move _ dest => opdInsert dest (opdInsert (.Operand (.Register idx)) defs)
            | .Extra p => opdInsert p.dest (opdInsert (.Operand (.Register idx)) defs)
            | _ => opdInsert (.Operand (.Register idx)) defs) from rfl]
    rw [ih, List.length_cons, exists_shift_reg, exists_shift_move, exists_shift_extra,
      mem_defs2, mem_opdInsert]
    generalize (∃ src, instr = SSAInstr.Move src x) = M
    generalize (∃ p, instr = SSAInstr.Extra p ∧ x = p.dest) = E
    generalize (∃ k, k < rest.length ∧ x = SSAOpd.Operand (Operand.Register (idx + 1 + k))) = A
    generalize (∃ k src, rest.get? k = some (SSAInstr.Move src x)) = B
    generalize (∃ k p, rest.get? k = some (SSAInstr.Extra p) ∧ x = p.dest) = C
    tauto

/-- C6: an instruction is selected as loop-invariant iff it is a Binary,
Unary, Load, Store or Move none of whose referenced operands is in `defs`;
branches, I/O, calls, phis, markers and nops are never selected; and
`get_defs` collects exactly the register indices of a block's instructions
together with the Move and Phi destinations. -/
theorem C6_invariant_selection :
    (∀ (instr : SSAInstr) (defs : List SSAOpd),
      check_invariant_instr instr defs = true ↔
        ((∃ op lhs rhs, instr = .Binary op lhs rhs ∧ lhs ∉ defs ∧ rhs ∉ defs)
          ∨ (∃ op o, instr = .Unary op o ∧ o ∉ defs)
          ∨ (∃ o, instr = .Load o ∧ o ∉ defs)
          ∨ (∃ d a, instr = .Store d a ∧ d ∉ defs ∧ a ∉ defs)
          ∨ (∃ s d, instr = .Move s d ∧ s ∉ defs ∧ d ∉ defs)))
    ∧ (∀ defs : List SSAOpd,
        (∀ br, check_invariant_instr (.Branch br) defs = false)
        ∧ check_invariant_instr .Read defs = false
        ∧ (∀ o, check_invariant_instr (.Write o) defs = false)
        ∧ check_invariant_instr .WriteLn defs = false
        ∧ (∀ ip, check_invariant_instr (.InterProc ip) defs = false)
        ∧ (∀ p, check_invariant_instr (.Extra p) defs = false)
        ∧ (∀ m, check_invariant_instr (.Marker m) defs = false)
        ∧ check_invariant_instr .Nop defs = false)
    ∧ (∀ (block : SSABlock) (acc : List SSAOpd) (x : SSAOpd),
        x ∈ get_defs block acc ↔
          x ∈ acc
          ∨ (∃ k, k < block.instructions.length
              ∧ x = .Operand (.Register (block.first_index + k)))
          ∨ (∃ k src, block.instructions.get? k = some (.Move src x))
          ∨ (∃ k p, block.instructions.get? k = some (.Extra p) ∧ x = p.dest)) := by
  refine ⟨?_, ?_, ?_⟩
  · intro instr defs
    cases instr <;> simp [check_invariant_instr, and_assoc]
  · intro defs
    refine ⟨fun _ => rfl, rfl, fun _ => rfl, rfl, fun _ => rfl, fun _ => rfl, fun _ => rfl, rfl⟩
  · intro block acc x
    exact mem_getDefsGo x block.instructions block.first_index acc

/-- Witness for C6: a Binary on two constants with empty `defs` is selected. -/
theorem C6_invariant_selection_witness :
    check_invariant_instr
      (.Binary "add" (.Operand (.Const 1)) (.Operand (.Const 2))) [] = true :=
  (C6_invariant_selection.1 _ []).mpr
    (Or.inl ⟨"add", _, _, rfl, by simp, by simp⟩)

/-! ### Index panning (`src/ir/panning.rs`) -/

def Operand.pan (f : Nat → Nat) : Operand → Operand
  | .Register x => .Register (f x)
  | o => o

def SSAOpd.pan (f : Nat → Nat) : SSAOpd → SSAOpd
  | .Operand opd => .Operand (opd.pan f)
  | o => o

def BranchKind.pan (f : Nat → Nat) : BranchKind → BranchKind
  | .Unconditional => .Unconditional
  | .If o => .If (o.pan f)
  | .Unless o => .Unless (o.pan f)

def Branching.pan (f : Nat → Nat) (b : Branching) : Branching :=
  ⟨b.method.pan f, b.dest⟩

def SSAInterProc.pan (f : Nat → Nat) : SSAInterProc → SSAInterProc
  | .PushParam o => .PushParam (o.pan f)
  | ip => ip

def Phi.pan (f : Nat → Nat) (p : Phi) : Phi :=
  ⟨p.vars.map (SSAOpd.pan f), p.blocks, p.dest⟩

def SSAInstr.pan (f : Nat → Nat) : SSAInstr → SSAInstr
  | .Binary op lhs rhs => .Binary op (lhs.pan f) (rhs.pan f)
  | .Unary op o => .Unary op (o.pan f)
  | .Branch b => .Branch (b.pan f)
  | .Load o => .Load (o.pan f)
  | .Store d a => .Store (d.pan f) (a.pan f)
  | .Move s d => .Move (s.pan f) (d.pan f)
  | .Read => .Read
  | .Write o => .Write (o.pan f)
  | .WriteLn => .WriteLn
  | .InterProc ip => .InterProc (ip.pan f)
  | .Nop => .Nop
  | .Marker m => .Marker m
  | .Extra p => .Extra (p.pan f)

def SSABlock.pan (f : Nat → Nat) (b : SSABlock) : SSABlock :=
  ⟨f b.first_index, b.instructions.map (SSAInstr.pan f)⟩

/-- `PannableBlock::panning_forward_fill`: prepend `offset` Nops and shift
register references forward by `offset`; `first_index` is unchanged. -/
def SSABlock.panning_forward_fill (b : SSABlock) (offset : Nat) : SSABlock :=
  ⟨b.first_index,
    List.replicate offset .Nop ++ b.instructions.map (SSAInstr.pan (fun x => x + offset))⟩

/-- The block loop of `panning_function`: each block is panned by
`x + index - i` with `i` its old `first_index`, and `index` advances by the
block's instruction count. -/
def panBlocksGo : List SSABlock → Nat → List SSABlock × Nat
  | [], index => ([], index)
  | block :: rest, index =>
    let i := block.first_index
    let b1 := block.pan (fun x => x + index - i)
    let r := panBlocksGo rest (index + block.instructions.length)
    (b1 :: r.1, r.2)

/-- `panning_function` (src/ir/panning.rs, lines 85-105).  The per-block
shift `x + index - i` uses truncated `Nat` subtraction where Rust `usize`
arithmetic would abort on underflow; none of the embedded runs underflows. -/
def panning_function (func : SSAFunction) (first_index : Nat) : SSAFunction × Nat :=
  let r := panBlocksGo func.blocks first_index
  (⟨func.parameter_count, func.local_var_count, func.entry_block, r.1⟩, r.2)

/-! ### Block insertion (`src/ir/insert_block.rs`) -/

namespace BlockInserter

/-- `helper::modify` (src/ir/insert_block.rs, lines 52-57). -/
def helper_modify (block_idx insert_idx dest : Nat) : Nat :=
  if dest < insert_idx ∨ (dest = insert_idx ∧ block_idx < insert_idx) then dest else dest + 1

def modify_instr (insert_idx : Nat) (instr : SSAInstr) (block_idx : Nat) : SSAInstr :=
  match instr with
  | .Branch b => .Branch ⟨b.method, helper_modify block_idx insert_idx b.dest⟩
  | .Extra p =>
    .Extra ⟨p.vars, p.blocks.map (fun b => if b > insert_idx then b + 1 else b), p.dest⟩
  | i => i

def modify_block (insert_idx : Nat) (block : SSABlock) (block_idx : Nat) : SSABlock :=
  ⟨block.first_index, block.instructions.map (fun i => modify_instr insert_idx i block_idx)⟩

/-- `BlockInserter::modify_function`: walk the blocks with their index,
inserting a fresh empty block (with `first_index = 0`) just before position
`insert_idx`, remapping branch destinations and phi predecessor indices,
and bumping `entry_block` when it lies strictly beyond the insertion point. -/
def modify_function (insert_idx : Nat) (func : SSAFunction) : SSAFunction :=
  let r := func.blocks.foldl
    (fun (acc : List SSABlock × Nat) block =>
      let i := acc.2
      let withNew := if insert_idx = i then acc.1 ++ [⟨0, []⟩] else acc.1
      (withNew ++ [modify_block insert_idx block i], i + 1))
    ([], 0)
  ⟨func.parameter_count, func.local_var_count,
    if func.entry_block > insert_idx then func.entry_block + 1 else func.entry_block,
    r.1⟩

/-- `BlockInserter::run` (src/ir/insert_block.rs, lines 13-16).  The Rust
code calls `panning_function(func, func.blocks[0].first_index)` after the
insertion, but `panning_function` takes `&Function` and returns a fresh
pair which `run` discards, so the call has no effect on `func`. -/
def run (func : SSAFunction) (insert_idx : Nat) : SSAFunction :=
  modify_function insert_idx func

end BlockInserter

/-- A two-block function with contiguous indices 3,4 then 5. -/
def c4Func : SSAFunction :=
  ⟨0, 0, 0, [⟨3, [.Nop, .Nop]⟩, ⟨5, [.Nop]⟩]⟩

/-- C4 (code bug): after `BlockInserter::run(c4Func, 1)` the inserted empty
block keeps the stale `first_index = 0`, so the function's indices are
`[3, 0, 5]` instead of the contiguous `[3, 5, 5]` that the discarded
`panning_function` call would have produced. -/
theorem C4_stale_first_index :
    (BlockInserter.run c4Func 1).blocks.map SSABlock.first_index = [3, 0, 5]
    ∧ (panning_function (BlockInserter.run c4Func 1) 3).1.blocks.map SSABlock.first_index
        = [3, 5, 5]
    ∧ ([3, 0, 5] : List Nat) ≠ [3, 5, 5] := by
  refine ⟨rfl, rfl, by decide⟩

/-! ### CFG construction (`src/analysis/cfg.rs`, `src/analysis/dom_frontier.rs`) -/

/-- Modelled from the spec: `successor_blocks_impl` lives in the external
`depile` crate, whose source is not part of this repository.  Spec section
4.1 gives its behaviour: an unconditional branch yields `{dest}`, a
conditional `If`/`Unless` yields `{dest, i+1}`, a fall-through terminator
yields `{i+1}`, and a terminating block (no further block) yields the empty
set.  Branch destinations are returned unchecked; the in-repo filter inside
`to_simple_cfg` (marked `TODO: out of range`) is the only bound check. -/
def successor_blocks_impl (blocks : List SSABlock) (i : Nat) : List Nat :=
  let ft := if i + 1 < blocks.length then [i + 1] else []
  match (blocks.get? i).bind (fun b => b.instructions.getLast?) with
  | some (.Branch ⟨.Unconditional, d⟩) => [d]
  | some (.Branch ⟨.If _, d⟩) => d :: ft
  | some (.Branch ⟨.Unless _, d⟩) => d :: ft
  | _ => ft

structure SimpleCfg where
  entry : Nat
  edges : List (Nat × List Nat)
deriving DecidableEq, Repr

/-- `SimpleCfg::from` (src/analysis/cfg.rs, lines 27-41): every successor
returned by `successor_blocks_impl` is inserted, without any range check. -/
def SimpleCfg.ofBlocks (entry : Nat) (blocks : List SSABlock) : SimpleCfg :=
  ⟨entry, (List.range blocks.length).map
    (fun i => (i, (successor_blocks_impl blocks i).foldl (fun s x => bsInsert x s) []))⟩

/-- `scfg::to_simple_cfg` (src/analysis/dom_frontier.rs, lines 75-91): the
same construction, but successors `s ≥ blocks.len()` are skipped. -/
def to_simple_cfg (entry : Nat) (blocks : List SSABlock) : SimpleCfg :=
  ⟨entry, (List.range blocks.length).map
    (fun i => (i, (successor_blocks_impl blocks i).foldl
      (fun s x => if blocks.length ≤ x then s else bsInsert x s) []))⟩

/-- `SimpleCfg::get_succs`; the lookup's `unwrap` cannot fail because the
edge map has a key for every block index. -/
def SimpleCfg.get_succs (cfg : SimpleCfg) (block_idx : Nat) : List Nat :=
  (cfg.edges.lookup block_idx).getD []

def SimpleCfg.get_prevs (cfg : SimpleCfg) (block_idx : Nat) : List Nat :=
  cfg.edges.foldl (fun res bb => if block_idx ∈ bb.2 then bsInsert bb.1 res else res) []

theorem foldl_boundedInsert_lt (n : Nat) :
    ∀ (l acc : List Nat), (∀ a ∈ acc, a < n) →
      ∀ s ∈ l.foldl (fun s x => if n ≤ x then s else bsInsert x s) acc, s < n := by
  intro l
  induction l with
  | nil => intro acc hacc s hs; exact hacc s hs
  | cons x xs ih =>
    intro acc hacc s hs
    simp only [List.foldl_cons] at hs
    by_cases hx : n ≤ x
    · rw [if_pos hx] at hs
      exact ih acc hacc s hs
    · rw [if_neg hx] at hs
      refine ih _ ?_ s hs
      intro a ha
      rcases mem_bsInsert.mp ha with rfl | ha2
      · omega
      · exact hacc a ha2

/-- C8 counterexample input: a single block ending in a branch to the
out-of-range block 5. -/
def c8Blocks : List SSABlock := [⟨0, [.Branch ⟨.Unconditional, 5⟩]⟩]

/-- C8 counterexample: `SimpleCfg::from` keeps the out-of-range successor 5
of a one-block function, so the claim that both CFG builders drop branch
destinations `≥ block count` is false for `SimpleCfg::from`. -/
theorem C8_from_keeps_out_of_range :
    (SimpleCfg.ofBlocks 0 c8Blocks).edges = [(0, [5])]
    ∧ ¬ (5 < c8Blocks.length) := by
  refine ⟨rfl, by decide⟩

/-- C8 (amended): only `to_simple_cfg` restricts successor sets to block
indices strictly below the block count; out-of-range branch destinations
are dropped silently there. -/
theorem C8_to_simple_cfg_in_range (entry : Nat) (blocks : List SSABlock)
    (pr : Nat × List Nat) (hpr : pr ∈ (to_simple_cfg entry blocks).edges)
    (s : Nat) (hs : s ∈ pr.2) : s < blocks.length := by
  simp only [to_simple_cfg, List.mem_map] at hpr
  obtain ⟨i, _, hi⟩ := hpr
  subst hi
  exact foldl_boundedInsert_lt blocks.length _ [] (by intro a ha; cases ha) s hs

/-- Witness for C8's amended statement on an in-range one-block function. -/
theorem C8_to_simple_cfg_in_range_witness :
    (0 : Nat) < ([⟨0, [.Branch ⟨.Unconditional, 0⟩]⟩] : List SSABlock).length :=
  C8_to_simple_cfg_in_range 0 [⟨0, [.Branch ⟨.Unconditional, 0⟩]⟩]
    (0, [0]) (by decide) 0 (by decide)

/-! ### Dominator analysis (`src/analysis/domtree.rs`) -/

def bsInterList (a b : List Nat) : List Nat := a.filter (fun x => decide (x ∈ b))

/-- Out-set vector access (defaults never fire on in-range indices). -/
def vget (v : List (List Nat)) (i : Nat) : List Nat := v[i]?.getD []

/-- One simultaneous round of the dominator data flow: for every block `b`,
`out(b) := in(b) ∪ {b}`, where `in(entry) = ∅` and otherwise `in(b)` is the
intersection of the predecessors' out-sets starting from the universe. -/
def domRound (cfg : SimpleCfg) (n : Nat) (out : List (List Nat)) : List (List Nat) :=
  (List.range n).map (fun b =>
    let inb := if b = cfg.entry then []
      else (cfg.get_prevs b).foldl (fun acc p => bsInterList acc (vget out p)) (List.range n)
    bsInsert b inb)

def domIterate (cfg : SimpleCfg) (n : Nat) : Nat → List (List Nat) → List (List Nat)
  | 0, out => out
  | fuel + 1, out =>
    let next := domRound cfg n out
    if next = out then out else domIterate cfg n fuel next

/-- Modelled from the spec: `compute_domtree` delegates to
`DomAnalysis::run_forward`, depile's generic worklist forward data-flow
engine, which is not part of this repository.  Spec section 4.2: bottom is
the full universe `{0..N-1}`, the entry in-set is empty, the transfer
function is `out(b) = in(b) ∪ {b}`, the in-set is the intersection of the
predecessors' out-sets, and the worklist iterates until no out-set changes.
The worklist is modelled by simultaneous rounds: every block is processed
at least once, then rounds repeat until stable (the chain is decreasing, so
`n*n + 2` rounds are ample fuel). -/
def compute_domtree (func : SSAFunction) : List (Nat × List Nat) :=
  let n := func.blocks.length
  let cfg := SimpleCfg.ofBlocks func.entry_block func.blocks
  let final := domIterate cfg n (n * n + 2) (domRound cfg n (List.replicate n (List.range n)))
  (List.range n).map (fun b => (b, vget final b))

theorem lookup_map_key {β : Type} (f : Nat → β) :
    ∀ (l : List Nat) (b : Nat), b ∈ l →
      (l.map (fun i => (i, f i))).lookup b = some (f b) := by
  intro l
  induction l with
  | nil => intro b hb; cases hb
  | cons a rest ih =>
    intro b hb
    simp only [List.map_cons, List.lookup]
    by_cases hba : b = a
    · subst hba
      simp
    · rw [show (b == a) = false from beq_eq_false_iff_ne.mpr hba]
      rcases List.mem_cons.mp hb with h | h
      · exact absurd h hba
      · exact ih b h

theorem vget_map_range (g : Nat → List Nat) (n b : Nat) (h : b < n) :
    vget ((List.range n).map g) b = g b := by
  unfold vget
  rw [List.getElem?_map, List.getElem?_range h]
  rfl

theorem domIterate_is_round_image (cfg : SimpleCfg) (n : Nat) :
    ∀ (fuel : Nat) (cur : List (List Nat)), (∃ p, cur = domRound cfg n p) →
      ∃ q, domIterate cfg n fuel cur = domRound cfg n q := by
  intro fuel
  induction fuel with
  | zero => intro cur h; exact h
  | succ fuel ih =>
    intro cur h
    rw [domIterate]
    by_cases hstable : domRound cfg n cur = cur
    · rw [if_pos hstable]
      exact h
    · rw [if_neg hstable]
      exact ih (domRound cfg n cur) ⟨cur, rfl⟩

theorem domRound_self_mem (cfg : SimpleCfg) (n : Nat) (out : List (List Nat))
    (b : Nat) (hb : b < n) : b ∈ vget (domRound cfg n out) b := by
  unfold domRound
  rw [vget_map_range _ n b hb]
  exact mem_bsInsert.mpr (Or.inl rfl)

theorem domRound_entry (cfg : SimpleCfg) (n : Nat) (out : List (List Nat))
    (e : Nat) (he : cfg.entry = e) (hentry : e < n) :
    vget (domRound cfg n out) e = [e] := by
  subst he
  unfold domRound
  rw [vget_map_range _ n cfg.entry hentry]
  simp [bsInsert]

/-- C7: the dominator data-flow analysis (entry in-set empty, bottom the
full universe, transfer `out(b) = in(b) ∪ {b}`, meet by intersection over
predecessors, iterated to a fixpoint) produces a map in which every block
is a member of its own dominator set, and the entry block's dominator set
is exactly `{entry}`. -/
theorem C7_dom_self_and_entry (func : SSAFunction)
    (hentry : func.entry_block < func.blocks.length) :
    (∀ b, b < func.blocks.length →
      ∃ s, (compute_domtree func).lookup b = some s ∧ b ∈ s)
    ∧ (compute_domtree func).lookup func.entry_block
        = some [func.entry_block] := by
  have himg : ∃ q,
      domIterate (SimpleCfg.ofBlocks func.entry_block func.blocks) func.blocks.length
        (func.blocks.length * func.blocks.length + 2)
        (domRound (SimpleCfg.ofBlocks func.entry_block func.blocks) func.blocks.length
          (List.replicate func.blocks.length (List.range func.blocks.length)))
      = domRound (SimpleCfg.ofBlocks func.entry_block func.blocks) func.blocks.length q :=
    domIterate_is_round_image _ _ _ _ ⟨_, rfl⟩
  obtain ⟨q, hq⟩ := himg
  constructor
  · intro b hb
    refine ⟨_, lookup_map_key _ (List.range func.blocks.length) b (List.mem_range.mpr hb), ?_⟩
    rw [hq]
    exact domRound_self_mem _ _ _ b hb
  · rw [show (compute_domtree func).lookup func.entry_block
        = some (vget (domIterate (SimpleCfg.ofBlocks func.entry_block func.blocks)
            func.blocks.length (func.blocks.length * func.blocks.length + 2)
            (domRound (SimpleCfg.ofBlocks func.entry_block func.blocks) func.blocks.length
              (List.replicate func.blocks.length (List.range func.blocks.length))))
            func.entry_block) from
      lookup_map_key _ (List.range func.blocks.length) func.entry_block
        (List.mem_range.mpr hentry)]
    rw [hq, domRound_entry _ _ _ func.entry_block rfl hentry]

/-- A one-block function used as the C7 witness. -/
def c7Func : SSAFunction := ⟨0, 0, 0, [⟨0, [.Nop]⟩]⟩

/-- Witness for C7 on a concrete one-block function. -/
theorem C7_dom_self_and_entry_witness :
    (∀ b, b < c7Func.blocks.length →
      ∃ s, (compute_domtree c7Func).lookup b = some s ∧ b ∈ s)
    ∧ (compute_domtree c7Func).lookup c7Func.entry_block
        = some [c7Func.entry_block] :=
  C7_dom_self_and_entry c7Func (by decide)

/-! ### Rename stacks (`src/analysis/phi.rs`, lines 275-327) -/

structure RenameStackCell where
  counter : Nat
  stack : List Nat
deriving DecidableEq, Repr

/-- `RenameStack`: a `BTreeMap<String, RenameStackCell>` as an association
list.  The key set is tracked explicitly because `rename_phi`'s counter
propagation iterates over the parent's keys; the per-key update below is
order-independent, so list order stands in for the B-tree's key order. -/
structure RenameStack where
  var_stacks : List (String × RenameStackCell)
deriving DecidableEq, Repr

def RenameStack.new : RenameStack := ⟨[]⟩

/-- The insert-if-absent half of `var_stack_mut`. -/
def RenameStack.touch (rs : RenameStack) (var : String) : RenameStack :=
  if (rs.var_stacks.lookup var).isSome then rs
  else ⟨rs.var_stacks ++ [(var, ⟨0, []⟩)]⟩

/-- Cell read with the default cell for absent keys; after `touch var` this
is exactly the cell `var_stack_mut` returns. -/
def RenameStack.getCellD (rs : RenameStack) (var : String) : RenameStackCell :=
  (rs.var_stacks.lookup var).getD ⟨0, []⟩

def RenameStack.setCell (rs : RenameStack) (var : String) (c : RenameStackCell) :
    RenameStack :=
  ⟨(rs.touch var).var_stacks.map (fun kv => if kv.1 = var then (var, c) else kv)⟩

/-- `RenameStack::try_get`: top of stack, or `-1` when the stack is empty. -/
def RenameStack.try_get (rs : RenameStack) (var : String) : Int × RenameStack :=
  let rs1 := rs.touch var
  (match (rs1.getCellD var).stack.getLast? with
    | some x => (x : Int)
    | none => -1, rs1)

/-- `RenameStack::get`: `cell.stack.last().unwrap()` — `none` models the
panic on an empty stack. -/
def RenameStack.get (rs : RenameStack) (var : String) : Option (Nat × RenameStack) :=
  let rs1 := rs.touch var
  match (rs1.getCellD var).stack.getLast? with
  | some x => some (x, rs1)
  | none => none

/-- `RenameStack::request`: return the counter and bump it. -/
def RenameStack.request (rs : RenameStack) (var : String) : Nat × RenameStack :=
  let rs1 := rs.touch var
  let c := rs1.getCellD var
  (c.counter, rs1.setCell var ⟨c.counter + 1, c.stack⟩)

def RenameStack.push_var (rs : RenameStack) (var : String) (var_idx : Nat) :
    RenameStack :=
  let rs1 := rs.touch var
  let c := rs1.getCellD var
  rs1.setCell var ⟨c.counter, c.stack ++ [var_idx]⟩

/-- `RenameStack::request_push` (src/analysis/phi.rs, lines 293-297). -/
def RenameStack.request_push (rs : RenameStack) (var : String) : Nat × RenameStack :=
  let r := rs.request var
  (r.1, r.2.push_var var r.1)

/-! ### Renaming (`impl Renameable`, src/analysis/phi.rs, lines 329-399) -/

/-- `impl Renameable for SSAOpd` (lines 334-349): a `Var` operand is
rewritten to the top of its rename stack via `RenameStack::get`, whose
`unwrap` panics (`none`) when the stack is empty.  All other operands are
untouched. -/
def SSAOpd.rename_by : SSAOpd → RenameStack → Option (SSAOpd × RenameStack)
  | .Operand (.Var var _), rs =>
    match rs.get var with
    | some r => some (.Subscribed var (r.1 : Int), r.2)
    | none => none
  | o, rs => some (o, rs)

def BranchKind.rename_by : BranchKind → RenameStack → Option (BranchKind × RenameStack)
  | .If o, rs => (o.rename_by rs).map (fun r => (.If r.1, r.2))
  | .Unless o, rs => (o.rename_by rs).map (fun r => (.Unless r.1, r.2))
  | b, rs => some (b, rs)

def SSAInterProc.rename_by : SSAInterProc → RenameStack → Option (SSAInterProc × RenameStack)
  | .PushParam o, rs => (o.rename_by rs).map (fun r => (.PushParam r.1, r.2))
  | ip, rs => some (ip, rs)

/-- `impl Renameable for SSAInstr` (lines 370-399); a `Move` to a `Var`
destination pushes a fresh subscript via `request_push`. -/
def SSAInstr.rename_by : SSAInstr → RenameStack → Option (SSAInstr × RenameStack)
  | .Binary op lhs rhs, rs => do
    let r1 ← lhs.rename_by rs
    let r2 ← rhs.rename_by r1.2
    some (.Binary op r1.1 r2.1, r2.2)
  | .Unary op o, rs => (o.rename_by rs).map (fun r => (.Unary op r.1, r.2))
  | .Branch b, rs => (b.method.rename_by rs).map (fun r => (.Branch ⟨r.1, b.dest⟩, r.2))
  | .Load o, rs => (o.rename_by rs).map (fun r => (.Load r.1, r.2))
  | .Store d a, rs => do
    let r1 ← d.rename_by rs
    let r2 ← a.rename_by r1.2
    some (.Store r1.1 r2.1, r2.2)
  | .Write o, rs => (o.rename_by rs).map (fun r => (.Write r.1, r.2))
  | .InterProc ip, rs => (ip.rename_by rs).map (fun r => (.InterProc r.1, r.2))
  | .Move src dst, rs => do
    let r1 ← src.rename_by rs
    match dst with
    | .Operand (.Var var _) =>
      let r2 := r1.2.request_push var
      some (.Move r1.1 (.Subscribed var (r2.1 : Int)), r2.2)
    | d => some (.Move r1.1 d, r1.2)
  | i, rs => some (i, rs)

theorem lookup_append_left_none {α β : Type} [BEq α] :
    ∀ (l1 l2 : List (α × β)) (a : α), l1.lookup a = none →
      (l1 ++ l2).lookup a = l2.lookup a := by
  intro l1
  induction l1 with
  | nil => intro l2 a _; rfl
  | cons kv rest ih =>
    intro l2 a h
    simp only [List.cons_append, List.lookup] at h ⊢
    cases hak : a == kv.1 with
    | true =>
      rw [hak] at h
      exact Option.noConfusion h
    | false =>
      rw [hak] at h
      exact ih l2 a h

theorem getCellD_touch (rs : RenameStack) (var : String) :
    (rs.touch var).getCellD var = rs.getCellD var := by
  unfold RenameStack.touch RenameStack.getCellD
  by_cases h : (rs.var_stacks.lookup var).isSome
  · rw [if_pos h]
  · rw [if_neg h]
    have hnone : rs.var_stacks.lookup var = none := by
      cases hl : rs.var_stacks.lookup var
      · rfl
      · rw [hl] at h; simp at h
    simp only [hnone]
    rw [lookup_append_left_none _ _ _ hnone]
    simp [List.lookup]

/-- C3 counterexample: an ordinary `Var` operand whose rename stack is
empty makes `rename_by` panic (`RenameStack::get` unwraps `None`) rather
than yield `Subscribed(var, -1)`. -/
theorem C3_get_panics_on_empty_stack :
    SSAOpd.rename_by (.Operand (.Var "x" 0)) RenameStack.new = none := rfl

/-- C3 (amended): for an ordinary instruction operand referencing a
variable with an empty rename stack, the renaming step fails
(`RenameStack::get` unwraps `None`); the subscript `-1` is produced only by
`RenameStack::try_get`, which is used when filling phi arguments of
successor blocks. -/
theorem C3_empty_stack_behaviour :
    (∀ (var : String) (off : Int) (rs : RenameStack),
      (rs.getCellD var).stack = [] →
      SSAOpd.rename_by (.Operand (.Var var off)) rs = none)
    ∧ (∀ (var : String) (rs : RenameStack),
      (rs.getCellD var).stack = [] →
      rs.try_get var = (-1, rs.touch var)) := by
  constructor
  · intro var off rs h
    simp only [SSAOpd.rename_by, RenameStack.get, getCellD_touch, h, List.getLast?_nil]
  · intro var rs h
    simp only [RenameStack.try_get, getCellD_touch, h, List.getLast?_nil]

/-- Witness for C3's amended statement at a fresh rename stack. -/
theorem C3_empty_stack_behaviour_witness :
    SSAOpd.rename_by (.Operand (.Var "y" 8)) RenameStack.new = none
    ∧ RenameStack.new.try_get "y" = (-1, RenameStack.new.touch "y") :=
  ⟨C3_empty_stack_behaviour.1 "y" 8 RenameStack.new rfl,
   C3_empty_stack_behaviour.2 "y" RenameStack.new rfl⟩

/-! ### SSA destruction (`src/analysis/ssa_to_aaa.rs`) -/

/-- Insertion position logic of `helper::push_var_assignment`: the `Move`
goes before a trailing branch, otherwise to the end of the block. -/
def pushMoveStmt (block : SSABlock) (src dst : SSAOpd) : SSABlock :=
  let stmt : SSAInstr := .Move src dst
  match block.instructions.getLast? with
  | none => ⟨block.first_index, [stmt]⟩
  | some (.Branch b) => ⟨block.first_index, block.instructions.dropLast ++ [stmt, .Branch b]⟩
  | some _ => ⟨block.first_index, block.instructions ++ [stmt]⟩

/-- `helper::push_var_assignment` (src/analysis/ssa_to_aaa.rs, lines
71-97): sources with a negative subscript (undefined) are skipped. -/
def push_var_assignment (block : SSABlock) (src dst : SSAOpd) : SSABlock :=
  match src with
  | .Subscribed _ i => if i < 0 then block else pushMoveStmt block src dst
  | _ => pushMoveStmt block src dst

/-- The per-phi work items `(blocks[i], vars[i], dest)` for `i <
vars.len()`; `none` models the index panic when `blocks` is shorter than
`vars`. -/
def phiWorkItems (p : Phi) : Option (List (Nat × SSAOpd × SSAOpd)) :=
  if p.vars.length ≤ p.blocks.length then
    some ((p.blocks.zip p.vars).map (fun bv => (bv.1, bv.2, p.dest)))
  else none

/-- The per-block loop of `remove_phi_func`: phis at the start of the block
are collected and overwritten with `Nop`; the loop `break`s at the first
non-phi instruction, leaving the rest untouched. -/
def scanPhiPrefix : List SSAInstr → Option (List (Nat × SSAOpd × SSAOpd) × List SSAInstr)
  | [] => some ([], [])
  | .Extra p :: rest => do
    let items ← phiWorkItems p
    let r ← scanPhiPrefix rest
    some (items ++ r.1, .Nop :: r.2)
  | instrs => some ([], instrs)

def applyWorkItems : List (Nat × SSAOpd × SSAOpd) → List SSABlock → Option (List SSABlock)
  | [], blocks => some blocks
  | item :: rest, blocks =>
    if h : item.1 < blocks.length then
      applyWorkItems rest
        (blocks.set item.1 (push_var_assignment (blocks.get ⟨item.1, h⟩) item.2.1 item.2.2))
    else none

def scanBlocksGo : List SSABlock → Option (List (Nat × SSAOpd × SSAOpd) × List SSABlock)
  | [] => some ([], [])
  | b :: rest => do
    let s ← scanPhiPrefix b.instructions
    let r ← scanBlocksGo rest
    some (s.1 ++ r.1, (⟨b.first_index, s.2⟩ : SSABlock) :: r.2)

/-- `SSATo3Addr::remove_phi_func` (src/analysis/ssa_to_aaa.rs, lines
25-43). -/
def remove_phi_func (func : SSAFunction) : Option SSAFunction := do
  let r ← scanBlocksGo func.blocks
  let blocks ← applyWorkItems r.1 r.2
  some ⟨func.parameter_count, func.local_var_count, func.entry_block, blocks⟩

/-- `impl Substitutable for SSAOpd` (src/analysis/ssa_to_aaa.rs, lines
146-163): a parameter use at subscript 0 becomes `Var(var, 8*(index+2))`;
any other subscripted operand is allocated the next free negative local
slot `-8*(k+1)` under the name `var ++ toString i`. -/
def SSAOpd.subst3 (opd : SSAOpd) (params : List String) (locals : List SSAOpd) :
    SSAOpd × List SSAOpd :=
  match opd with
  | .Subscribed var i =>
    if var ∈ params ∧ i = 0 then
      let offset : Int := params.indexOf var
      (.Operand (.Var var (offset * 8 + 16)), locals)
    else
      let locals1 := if opd ∈ locals then locals else locals ++ [opd]
      let offset : Int := locals1.indexOf opd
      (.Operand (.Var (var ++ toString i) (-offset * 8 - 8)), locals1)
  | o => (o, locals)

/-- `impl Substitutable for SSAInstr` (src/analysis/ssa_to_aaa.rs, lines
111-144); the `Extra` arm is `panic!("Error phi node")`. -/
def SSAInstr.subst3 : SSAInstr → List String → List SSAOpd →
    Option (SSAInstr × List SSAOpd)
  | .Binary op lhs rhs, params, locals =>
    let r1 := lhs.subst3 params locals
    let r2 := rhs.subst3 params r1.2
    some (.Binary op r1.1 r2.1, r2.2)
  | .Unary op o, params, locals =>
    let r := o.subst3 params locals
    some (.Unary op r.1, r.2)
  | .Branch b, params, locals =>
    match b.method with
    | .If o =>
      let r := o.subst3 params locals
      some (.Branch ⟨.If r.1, b.dest⟩, r.2)
    | .Unless o =>
      let r := o.subst3 params locals
      some (.Branch ⟨.Unless r.1, b.dest⟩, r.2)
    | .Unconditional => some (.Branch b, locals)
  | .Load o, params, locals =>
    let r := o.subst3 params locals
    some (.Load r.1, r.2)
  | .Store d a, params, locals =>
    let r1 := d.subst3 params locals
    let r2 := a.subst3 params r1.2
    some (.Store r1.1 r2.1, r2.2)
  | .Move s d, params, locals =>
    let r1 := s.subst3 params locals
    let r2 := d.subst3 params r1.2
    some (.Move r1.1 r2.1, r2.2)
  | .Read, _, locals => some (.Read, locals)
  | .Write o, params, locals =>
    let r := o.subst3 params locals
    some (.Write r.1, r.2)
  | .WriteLn, _, locals => some (.WriteLn, locals)
  | .InterProc ip, params, locals =>
    match ip with
    | .PushParam o =>
      let r := o.subst3 params locals
      some (.InterProc (.PushParam r.1), r.2)
    | .Call d => some (.InterProc (.Call d), locals)
  | .Nop, _, locals => some (.Nop, locals)
  | .Marker m, _, locals => some (.Marker m, locals)
  | .Extra _, _, _ => none

def substInstrsGo (params : List String) :
    List SSAInstr → List SSAOpd → Option (List SSAInstr × List SSAOpd)
  | [], locals => some ([], locals)
  | instr :: rest, locals => do
    let s ← instr.subst3 params locals
    let r ← substInstrsGo params rest s.2
    some (s.1 :: r.1, r.2)

def substBlocksGo (params : List String) :
    List SSABlock → List SSAOpd → Option (List SSABlock × List SSAOpd)
  | [], locals => some ([], locals)
  | b :: rest, locals => do
    let s ← substInstrsGo params b.instructions locals
    let r ← substBlocksGo params rest s.2
    some ((⟨b.first_index, s.1⟩ : SSABlock) :: r.1, r.2)

/-- `SSATo3Addr::rename_params` (src/analysis/ssa_to_aaa.rs, lines 45-52):
substitute every operand, then set `local_var_count` to the number of
allocated locals. -/
def rename_params (func : SSAFunction) (params : List String) :
    Option (SSAFunction × List SSAOpd) := do
  let r ← substBlocksGo params func.blocks []
  some (⟨func.parameter_count, r.2.length, func.entry_block, r.1⟩, r.2)

/-- `SSATo3Addr::flatten` (src/analysis/ssa_to_aaa.rs, lines 54-62): pan
the functions sequentially starting at the program base index 3. -/
def flattenGo : List SSAFunction → Nat → List SSAFunction
  | [], _ => []
  | f :: rest, index =>
    let r := panning_function f index
    r.1 :: flattenGo rest r.2

/-- The per-function loop of `SSATo3Addr::run`: for each parameter list,
remove phis from and rewrite the function at the same index.  `none` covers
the `funcs.functions.get_mut(i).unwrap()` panic when there are more
parameter lists than functions. -/
def processFuncs : List SSAFunction → List (List String) →
    Option (List SSAFunction × List (List SSAOpd))
  | fs, [] => some (fs, [])
  | [], _ :: _ => none
  | f :: fs, ps :: rest => do
    let f1 ← remove_phi_func f
    let r ← rename_params f1 ps
    let t ← processFuncs fs rest
    some (r.1 :: t.1, r.2 :: t.2)

/-- `SSATo3Addr::run` (src/analysis/ssa_to_aaa.rs, lines 11-23). -/
def SSATo3Addr_run (funcs : SSAFunctions) (params : List (List String)) :
    Option (SSAFunctions × List (List SSAOpd)) := do
  let r ← processFuncs funcs.functions params
  some (⟨flattenGo r.1 3, funcs.entry_function⟩, r.2)

/-! Absence of `Subscribed` operands. -/

def opdIsSub : SSAOpd → Bool
  | .Subscribed _ _ => true
  | _ => false

def instrHasSub : SSAInstr → Bool
  | .Binary _ lhs rhs => opdIsSub lhs || opdIsSub rhs
  | .Unary _ o => opdIsSub o
  | .Branch b =>
    match b.method with
    | .If o => opdIsSub o
    | .Unless o => opdIsSub o
    | .Unconditional => false
  | .Load o => opdIsSub o
  | .Store d a => opdIsSub d || opdIsSub a
  | .Move s d => opdIsSub s || opdIsSub d
  | .Write o => opdIsSub o
  | .InterProc ip =>
    match ip with
    | .PushParam o => opdIsSub o
    | .Call _ => false
  | .Extra p => p.vars.any opdIsSub || opdIsSub p.dest
  | _ => false

/-- No instruction of any block of any function contains a `Subscribed`
operand. -/
def NoSubFunctions (fns : SSAFunctions) : Prop :=
  ∀ f ∈ fns.functions, ∀ b ∈ f.blocks, ∀ i ∈ b.instructions, instrHasSub i = false

theorem opd_subst3_noSub (opd : SSAOpd) (params : List String) (locals : List SSAOpd) :
    opdIsSub (opd.subst3 params locals).1 = false := by
  cases opd with
  | Subscribed var i =>
    simp only [SSAOpd.subst3]
    by_cases h : var ∈ params ∧ i = 0
    · rw [if_pos h]
      rfl
    · rw [if_neg h]
      rfl
  | Operand o => rfl
  | NOpd => rfl

theorem instr_subst3_noSub (instr : SSAInstr) (params : List String)
    (locals : List SSAOpd) (r : SSAInstr × List SSAOpd)
    (h : instr.subst3 params locals = some r) : instrHasSub r.1 = false := by
  cases instr with
  | Binary op lhs rhs =>
    simp only [SSAInstr.subst3, Option.some.injEq] at h
    subst h
    simp [instrHasSub, opd_subst3_noSub]
  | Unary op o =>
    simp only [SSAInstr.subst3, Option.some.injEq] at h
    subst h
    simp [instrHasSub, opd_subst3_noSub]
  | Branch b =>
    cases hb : b.method with
    | If o =>
      simp only [SSAInstr.subst3, hb, Option.some.injEq] at h
      subst h
      simp [instrHasSub, opd_subst3_noSub]
    | Unless o =>
      simp only [SSAInstr.subst3, hb, Option.some.injEq] at h
      subst h
      simp [instrHasSub, opd_subst3_noSub]
    | Unconditional =>
      simp only [SSAInstr.subst3, hb, Option.some.injEq] at h
      subst h
      simp [instrHasSub, hb]
  | Load o =>
    simp only [SSAInstr.subst3, Option.some.injEq] at h
    subst h
    simp [instrHasSub, opd_subst3_noSub]
  | Store d a =>
    simp only [SSAInstr.subst3, Option.some.injEq] at h
    subst h
    simp [instrHasSub, opd_subst3_noSub]
  | Move s d =>
    simp only [SSAInstr.subst3, Option.some.injEq] at h
    subst h
    simp [instrHasSub, opd_subst3_noSub]
  | Read =>
    simp only [SSAInstr.subst3, Option.some.injEq] at h
    subst h
    rfl
  | Write o =>
    simp only [SSAInstr.subst3, Option.some.injEq] at h
    subst h
    simp [instrHasSub, opd_subst3_noSub]
  | WriteLn =>
    simp only [SSAInstr.subst3, Option.some.injEq] at h
    subst h
    rfl
  | InterProc ip =>
    cases ip with
    | PushParam o =>
      simp only [SSAInstr.subst3, Option.some.injEq] at h
      subst h
      simp [instrHasSub, opd_subst3_noSub]
    | Call dCall =>
      simp only [SSAInstr.subst3, Option.some.injEq] at h
      subst h
      rfl
  | Nop =>
    simp only [SSAInstr.subst3, Option.some.injEq] at h
    subst h
    rfl
  | Marker m =>
    simp only [SSAInstr.subst3, Option.some.injEq] at h
    subst h
    rfl
  | Extra p => exact Option.noConfusion h

theorem substInstrsGo_noSub (params : List String) :
    ∀ (instrs : List SSAInstr) (locals : List SSAOpd)
      (r : List SSAInstr × List SSAOpd),
      substInstrsGo params instrs locals = some r →
      ∀ i ∈ r.1, instrHasSub i = false := by
  intro instrs
  induction instrs with
  | nil =>
    intro locals r h i hi
    simp only [substInstrsGo, Option.some.injEq] at h
    subst h
    cases hi
  | cons instr rest ih =>
    intro locals r h i hi
    simp only [substInstrsGo, Option.bind_eq_bind, Option.bind_eq_some] at h
    obtain ⟨s, hs, h2⟩ := h
    obtain ⟨t, ht, h3⟩ := h2
    rw [Option.some.injEq] at h3
    subst h3
    rcases List.mem_cons.mp hi with rfl | hi2
    · exact instr_subst3_noSub instr params locals s hs
    · exact ih s.2 t ht i hi2

theorem substBlocksGo_noSub (params : List String) :
    ∀ (blocks : List SSABlock) (locals : List SSAOpd)
      (r : List SSABlock × List SSAOpd),
      substBlocksGo params blocks locals = some r →
      ∀ b ∈ r.1, ∀ i ∈ b.instructions, instrHasSub i = false := by
  intro blocks
  induction blocks with
  | nil =>
    intro locals r h b hb
    simp only [substBlocksGo, Option.some.injEq] at h
    subst h
    cases hb
  | cons blk rest ih =>
    intro locals r h b hb i hi
    simp only [substBlocksGo, Option.bind_eq_bind, Option.bind_eq_some] at h
    obtain ⟨s, hs, h2⟩ := h
    obtain ⟨t, ht, h3⟩ := h2
    rw [Option.some.injEq] at h3
    subst h3
    rcases List.mem_cons.mp hb with rfl | hb2
    · exact substInstrsGo_noSub params blk.instructions locals s hs i hi
    · exact ih s.2 t ht b hb2 i hi

theorem rename_params_noSub (func : SSAFunction) (params : List String)
    (r : SSAFunction × List SSAOpd) (h : rename_params func params = some r) :
    ∀ b ∈ r.1.blocks, ∀ i ∈ b.instructions, instrHasSub i = false := by
  simp only [rename_params, Option.bind_eq_bind, Option.bind_eq_some,
    Option.some.injEq] at h
  obtain ⟨s, hs, h2⟩ := h
  subst h2
  exact substBlocksGo_noSub params func.blocks [] s hs

theorem opd_pan_noSub (o : SSAOpd) (f : Nat → Nat) :
    opdIsSub (o.pan f) = opdIsSub o := by
  cases o <;> rfl

theorem any_pan_noSub (f : Nat → Nat) :
    ∀ l : List SSAOpd, (l.map (SSAOpd.pan f)).any opdIsSub = l.any opdIsSub := by
  intro l
  induction l with
  | nil => rfl
  | cons x xs ih =>
    simp only [List.map_cons, List.any_cons, opd_pan_noSub, ih]

theorem instr_pan_noSub (i : SSAInstr) (f : Nat → Nat) :
    instrHasSub (i.pan f) = instrHasSub i := by
  cases i with
  | Binary op lhs rhs => simp [SSAInstr.pan, instrHasSub, opd_pan_noSub]
  | Unary op o => simp [SSAInstr.pan, instrHasSub, opd_pan_noSub]
  | Branch b =>
    cases hb : b.method <;>
      simp [SSAInstr.pan, instrHasSub, Branching.pan, BranchKind.pan, hb, opd_pan_noSub]
  | Load o => simp [SSAInstr.pan, instrHasSub, opd_pan_noSub]
  | Store d a => simp [SSAInstr.pan, instrHasSub, opd_pan_noSub]
  | Move s d => simp [SSAInstr.pan, instrHasSub, opd_pan_noSub]
  | Read => rfl
  | Write o => simp [SSAInstr.pan, instrHasSub, opd_pan_noSub]
  | WriteLn => rfl
  | InterProc ip =>
    cases ip <;> simp [SSAInstr.pan, instrHasSub, SSAInterProc.pan, opd_pan_noSub]
  | Nop => rfl
  | Marker m => rfl
  | Extra p =>
    simp only [SSAInstr.pan, instrHasSub, Phi.pan]
    rw [any_pan_noSub]

theorem panBlocksGo_noSub :
    ∀ (blocks : List SSABlock) (index : Nat),
      (∀ b ∈ blocks, ∀ i ∈ b.instructions, instrHasSub i = false) →
      ∀ b ∈ (panBlocksGo blocks index).1, ∀ i ∈ b.instructions, instrHasSub i = false := by
  intro blocks
  induction blocks with
  | nil => intro index h b hb; cases hb
  | cons blk rest ih =>
    intro index h b hb i hi
    simp only [panBlocksGo] at hb
    rcases List.mem_cons.mp hb with rfl | hb2
    · simp only [SSABlock.pan, List.mem_map] at hi
      obtain ⟨j, hj, hji⟩ := hi
      rw [← hji, instr_pan_noSub]
      exact h blk (by simp) j hj
    · exact ih (index + blk.instructions.length)
        (fun b2 hb2m => h b2 (by simp [hb2m])) b hb2 i hi

theorem flattenGo_noSub :
    ∀ (fs : List SSAFunction) (index : Nat),
      (∀ f ∈ fs, ∀ b ∈ f.blocks, ∀ i ∈ b.instructions, instrHasSub i = false) →
      ∀ f ∈ flattenGo fs index, ∀ b ∈ f.blocks, ∀ i ∈ b.instructions,
        instrHasSub i = false := by
  intro fs
  induction fs with
  | nil => intro index h f hf; cases hf
  | cons f0 rest ih =>
    intro index h f hf
    simp only [flattenGo] at hf
    rcases List.mem_cons.mp hf with rfl | hf2
    · exact panBlocksGo_noSub f0.blocks index (h f0 (by simp))
    · exact ih (panning_function f0 index).2 (fun g hg => h g (by simp [hg])) f hf2

theorem processFuncs_noSub :
    ∀ (ps : List (List String)) (fs : List SSAFunction)
      (r : List SSAFunction × List (List SSAOpd)),
      processFuncs fs ps = some r → ps.length = fs.length →
      ∀ f ∈ r.1, ∀ b ∈ f.blocks, ∀ i ∈ b.instructions, instrHasSub i = false := by
  intro ps
  induction ps with
  | nil =>
    intro fs r h hlen f hf
    cases fs with
    | nil =>
      simp only [processFuncs, Option.some.injEq] at h
      subst h
      cases hf
    | cons g gs => simp at hlen
  | cons p rest ih =>
    intro fs r h hlen f hf
    cases fs with
    | nil => exact Option.noConfusion h
    | cons g gs =>
      simp only [processFuncs, Option.bind_eq_bind, Option.bind_eq_some,
        Option.some.injEq] at h
      obtain ⟨f1, hf1, s, hs, t, ht, h4⟩ := h
      subst h4
      rcases List.mem_cons.mp hf with rfl | hf2
      · exact rename_params_noSub f1 p s hs
      · exact ih gs t ht (by simpa using hlen) f hf2

/-- C2: whenever `SSATo3Addr::run` completes (in particular the input phis
all sat at the start of their blocks, or phi removal / rewriting would have
panicked), no operand of any instruction of any output function is a
`Subscribed` operand; moreover every `Subscribed(var, i)` operand is
rewritten to `Var(var, 8*(k+2))` when `var` is the `k`-th known parameter
and `i = 0`, and otherwise to a `Var` at a negative frame offset
`-8*(k+1)`. -/
theorem C2_no_subscribed (funcs : SSAFunctions) (params : List (List String))
    (out : SSAFunctions × List (List SSAOpd))
    (hlen : params.length = funcs.functions.length)
    (hrun : SSATo3Addr_run funcs params = some out) :
    NoSubFunctions out.1
    ∧ (∀ (var : String) (i : Int) (ps : List String) (locals : List SSAOpd),
        (var ∈ ps ∧ i = 0 →
          (SSAOpd.Subscribed var i).subst3 ps locals =
            (.Operand (.Var var ((ps.indexOf var : Int) * 8 + 16)), locals))
        ∧ (¬ (var ∈ ps ∧ i = 0) →
          (SSAOpd.Subscribed var i).subst3 ps locals =
            (.Operand (.Var (var ++ toString i)
              (-(((if (SSAOpd.Subscribed var i) ∈ locals then locals
                  else locals ++ [SSAOpd.Subscribed var i]).indexOf
                    (SSAOpd.Subscribed var i) : Int)) * 8 - 8)),
              if (SSAOpd.Subscribed var i) ∈ locals then locals
              else locals ++ [SSAOpd.Subscribed var i]))) := by
  constructor
  · simp only [SSATo3Addr_run, Option.bind_eq_bind, Option.bind_eq_some,
      Option.some.injEq] at hrun
    obtain ⟨r, hr, hout⟩ := hrun
    subst hout
    intro f hf
    exact flattenGo_noSub r.1 3
      (processFuncs_noSub params funcs.functions r hr hlen) f hf
  · intro var i ps locals
    constructor
    · intro hcond
      simp only [SSAOpd.subst3, if_pos hcond]
    · intro hcond
      simp only [SSAOpd.subst3, if_neg hcond]

/-- Input for the C2 witness: one function whose single `Move` writes the
SSA name `x$0`, with an empty parameter list. -/
def c2Funcs : SSAFunctions :=
  ⟨[⟨0, 0, 0, [⟨0, [.Move (.Operand (.Const 1)) (.Subscribed "x" 0)]⟩]⟩], 0⟩

/-- Witness for C2: running the embedded `SSATo3Addr::run` on `c2Funcs`
succeeds and the output is free of `Subscribed` operands. -/
theorem C2_no_subscribed_witness :
    NoSubFunctions
      ((⟨[⟨0, 1, 0, [⟨3, [.Move (.Operand (.Const 1))
          (.Operand (.Var "x0" (-8)))]⟩]⟩], 0⟩ : SSAFunctions),
        ([[SSAOpd.Subscribed "x" 0]] : List (List SSAOpd))).1 :=
  (C2_no_subscribed c2Funcs [[]]
    (⟨[⟨0, 1, 0, [⟨3, [.Move (.Operand (.Const 1)) (.Operand (.Var "x0" (-8)))]⟩]⟩], 0⟩,
      [[SSAOpd.Subscribed "x" 0]])
    (by rfl) (by rfl)).1

/-! ### CLI surface (`src/cli.rs`, `src/main.rs`) -/

/-- The CLI error kinds (src/cli.rs, lines 60-78) with their `displaydoc`
format strings; the payloads of the wrapped upstream errors are opaque
display strings. -/
inductive CliError where
  | InvalidArguments (msg : String)
  | InvalidInput (msg : String)
  | MalformedBlocks (msg : String)
  | MalformedFunctions (msg : String)
  | CannotResolveFunctionCall (msg : String)
  | IoError (msg : String)
  | CannotFormat (msg : String)
deriving DecidableEq, Repr

def CliError.display : CliError → String
  | .InvalidArguments m => m
  | .InvalidInput m => "parse error: " ++ m
  | .MalformedBlocks m => "failed to parse into basic blocks: " ++ m
  | .MalformedFunctions m => "failed to group into functions: " ++ m
  | .CannotResolveFunctionCall m => "failed to resolve function call instructions: " ++ m
  | .IoError m => "failed to read file: " ++ m
  | .CannotFormat m => "cannot format the output: " ++ m

structure ProcessOutcome where
  stderrLines : List String
  exitCode : Nat
deriving DecidableEq, Repr

/-- `main` (src/main.rs, lines 8-12): `if let Err(err) = Cli::run() {
eprintln!("{}", err); }`.  `eprintln!` emits one line on stderr; `main`
returns `()` on both paths, and a Rust `main` returning `()` exits the
process with status 0. -/
def mainOutcome : Except CliError Unit → ProcessOutcome
  | .ok _ => ⟨[], 0⟩
  | .error e => ⟨[e.display], 0⟩

/-- C9 (code bug): the CLI exits 0 on success and prints the error's
display form to stderr as one line on failure — but the exit status on
failure is also 0, because `main` only prints the error and returns `()`
instead of exiting non-zero. -/
theorem C9_exit_status :
    mainOutcome (.ok ()) = ⟨[], 0⟩
    ∧ (∀ e : CliError, mainOutcome (.error e) = ⟨[e.display], 0⟩)
    ∧ mainOutcome (.error (.IoError "No such file or directory (os error 2)"))
        = ⟨["failed to read file: No such file or directory (os error 2)"], 0⟩ := by
  exact ⟨rfl, fun e => rfl, rfl⟩

/-! ### Dominator-tree derivations (`src/analysis/domtree.rs`) -/

/-- `dominate_nodes`: the blocks whose dominator set contains `block_idx`,
in ascending key order. -/
def dominate_nodes (domtree : List (Nat × List Nat)) (block_idx : Nat) : List Nat :=
  (domtree.filter (fun kv => decide (block_idx ∈ kv.2))).map (fun kv => kv.1)

def dominator (domtree : List (Nat × List Nat)) (block_idx : Nat) : List Nat :=
  (domtree.lookup block_idx).getD []

def dominate (domtree : List (Nat × List Nat)) (x y : Nat) : Bool :=
  decide (x ∈ dominator domtree y)

def imm_dominators (imm_doms : List (Nat × Option Nat)) (block_idx : Nat) : Option Nat :=
  (imm_doms.lookup block_idx).getD none

/-- `get_idom` (src/analysis/domtree.rs, lines 85-95): the first key `i`
whose dominator set, extended with `block_idx`, equals `block_idx`'s
dominator set while not already containing `block_idx`. -/
def get_idom (block_idx : Nat) (domtree : List (Nat × List Nat)) : Option Nat :=
  let doms := dominator domtree block_idx
  (domtree.find? (fun kv =>
    bsInsert block_idx kv.2 == doms && !(decide (block_idx ∈ kv.2)))).map (fun kv => kv.1)

def compute_idom (domtree : List (Nat × List Nat)) : List (Nat × Option Nat) :=
  domtree.map (fun kv => (kv.1, get_idom kv.1 domtree))

/-- `root_of_domtree` (src/analysis/domtree.rs, lines 57-62); `none` models
the `panic!("Root not found")`. -/
def root_of_domtree (domtree : List (Nat × List Nat)) : Option Nat :=
  (domtree.find? (fun kv => kv.2.length == 1)).map (fun kv => kv.1)

/-- `PhiForge::top_down_domtree` (src/analysis/phi.rs, lines 176-185): the
dominator-tree children map, built by inverting the immediate-dominator
relation (the `get_mut(j).unwrap` cannot fail: every immediate dominator is
a block index and hence a key of the initial map). -/
def top_down_domtree (domtree : List (Nat × List Nat))
    (imm_doms : List (Nat × Option Nat)) : List (Nat × List Nat) :=
  let init := (List.range domtree.length).map (fun i => (i, ([] : List Nat)))
  imm_doms.foldl
    (fun res ij =>
      match ij.2 with
      | some j => res.map (fun kv => if kv.1 = j then (kv.1, bsInsert ij.1 kv.2) else kv)
      | none => res)
    init

/-! ### Dominance frontier (`src/analysis/dom_frontier.rs`) -/

/-- The recursive `df` with its memo table `dfs` and explicit fuel (the
Rust recursion is bounded by the dominator-tree depth, so any fuel above
the block count is enough). -/
def dfGo (domtree : List (Nat × List Nat)) (imm_doms : List (Nat × Option Nat))
    (cfg : SimpleCfg) :
    Nat → Nat → List (Nat × List Nat) → Option (List Nat × List (Nat × List Nat))
  | 0, _, _ => none
  | fuel + 1, block_idx, dfs =>
    match dfs.lookup block_idx with
    | some v => some (v, dfs)
    | none => do
      let locals := (cfg.get_succs block_idx).foldl
        (fun res succ =>
          if (imm_dominators imm_doms succ).elim false (fun x => x = block_idx) then res
          else bsInsert succ res)
        []
      let r ← (dominate_nodes domtree block_idx).foldlM
        (fun (acc : List Nat × List (Nat × List Nat)) child =>
          if child = block_idx then pure acc
          else do
            let rc ← dfGo domtree imm_doms cfg fuel child acc.2
            let res := rc.1.foldl
              (fun res node =>
                let res1 :=
                  if !(dominate domtree block_idx node) then bsInsert node res else res
                if block_idx = node then bsInsert node res1 else res1)
              acc.1
            pure (res, rc.2))
        (locals, dfs)
      pure (r.1, r.2 ++ [(block_idx, r.1)])

/-- `compute_df` (src/analysis/dom_frontier.rs, lines 13-19); used from
`PhiForge::new` under the name `compute_df_cfg`. -/
def compute_df (domtree : List (Nat × List Nat)) (cfg : SimpleCfg) :
    Option (List (Nat × List Nat)) := do
  let imm_doms := compute_idom domtree
  let root ← root_of_domtree domtree
  let r ← dfGo domtree imm_doms cfg (domtree.length + 1) root []
  pure r.2

/-! ### Phi inference (`src/analysis/phi.rs`) -/

/-- Lexicographic order on character lists (Rust's `String` ordering),
spelled out so that it evaluates by kernel reduction. -/
def charListLt : List Char → List Char → Bool
  | [], [] => false
  | [], _ :: _ => true
  | _ :: _, [] => false
  | c :: cs, d :: ds =>
    if c.toNat < d.toNat then true
    else if d.toNat < c.toNat then false
    else charListLt cs ds

def strLt (a b : String) : Bool := charListLt a.data b.data

/-- Sorted `BTreeSet<String>` insertion. -/
def strInsert (x : String) : List String → List String
  | [] => [x]
  | y :: ys =>
    if strLt x y then x :: y :: ys else if x = y then y :: ys else y :: strInsert x ys

/-- `HasVariableOperand::get_var_name` for SSA operands. -/
def SSAOpd.get_var_name : SSAOpd → Option String
  | .Operand (.Var var _) => some var
  | .Subscribed var _ => some var
  | _ => none

/-- `find_defs` (src/analysis/phi.rs, lines 17-28): the variables written
by `Move`-to-variable instructions of a block. -/
def find_defs (block : SSABlock) : List String :=
  block.instructions.foldl
    (fun vars instr =>
      match instr with
      | .Move _ dst =>
        match dst.get_var_name with
        | some v => strInsert v vars
        | none => vars
      | _ => vars)
    []

/-- `BTreeMap<String, Vec<usize>>` insertion for `def_sites`: keys sorted,
block indices appended in visit order. -/
def dsInsert (var : String) (i : Nat) : List (String × List Nat) → List (String × List Nat)
  | [] => [(var, [i])]
  | kv :: rest =>
    if strLt var kv.1 then (var, [i]) :: kv :: rest
    else if var = kv.1 then (kv.1, kv.2 ++ [i]) :: rest
    else kv :: dsInsert var i rest

/-- The `def_sites` map of `infer_phi`: per variable, its defining blocks
in ascending order. -/
def def_sites (func : SSAFunction) : List (String × List Nat) :=
  (func.blocks.foldl
    (fun (acc : List (String × List Nat) × Nat) block =>
      ((find_defs block).foldl (fun m var => dsInsert var acc.2 m) acc.1, acc.2 + 1))
    ([], 0)).1

structure PhiCell where
  var : String
  origins : List Nat
deriving DecidableEq, Repr

/-- `BTreeMap<String, PhiCell>` insertion (sorted by variable name). -/
def pcInsertNew (var : String) (cell : PhiCell) :
    List (String × PhiCell) → List (String × PhiCell)
  | [] => [(var, cell)]
  | kv :: rest =>
    if strLt var kv.1 then (var, cell) :: kv :: rest
    else if var = kv.1 then (var, cell) :: rest
    else kv :: pcInsertNew var cell rest

def pcAddOrigin (var : String) (b : Nat) :
    List (String × PhiCell) → List (String × PhiCell)
  | [] => []
  | kv :: rest =>
    if kv.1 = var then (kv.1, ⟨kv.2.var, bsInsert b kv.2.origins⟩) :: rest
    else kv :: pcAddOrigin var b rest

def pmUpdate (df : Nat) (f : List (String × PhiCell) → List (String × PhiCell)) :
    List (Nat × List (String × PhiCell)) → List (Nat × List (String × PhiCell))
  | [] => []
  | kv :: rest => if kv.1 = df then (kv.1, f kv.2) :: rest else kv :: pmUpdate df f rest

def pmGet (m : List (Nat × List (String × PhiCell))) (i : Nat) : List (String × PhiCell) :=
  (m.lookup i).getD []

/-- The per-variable worklist of `infer_phi` step 3.  `blocks.pop()` takes
the last element; for each frontier block a missing phi cell is created
(pushing the block back onto the worklist) and the defining block is added
to the cell's origins. -/
def inferVarGo (dfs : List (Nat × List Nat)) (var : String) :
    Nat → List Nat → List (Nat × List (String × PhiCell)) →
    Option (List (Nat × List (String × PhiCell)))
  | 0, _, _ => none
  | fuel + 1, worklist, phi =>
    match worklist.getLast? with
    | none => some phi
    | some b =>
      let r := ((dfs.lookup b).getD []).foldl
        (fun (acc : List Nat × List (Nat × List (String × PhiCell))) df =>
          if ((pmGet acc.2 df).lookup var).isSome then
            (acc.1, pmUpdate df (pcAddOrigin var b) acc.2)
          else
            (acc.1 ++ [df],
              pmUpdate df (fun m => pcAddOrigin var b (pcInsertNew var ⟨var, []⟩ m)) acc.2))
        (worklist.dropLast, phi)
      inferVarGo dfs var fuel r.1 r.2

/-- `PhiForge::infer_phi` (src/analysis/phi.rs, lines 131-173).  Per
variable the worklist pops at most its initial length plus one newly
inserted phi per block, so the fuel is ample. -/
def infer_phi (func : SSAFunction) (dfs : List (Nat × List Nat)) :
    Option (List (Nat × List (String × PhiCell))) := do
  let init := (List.range func.blocks.length).map
    (fun i => (i, ([] : List (String × PhiCell))))
  (def_sites func).foldlM
    (fun phi kv => inferVarGo dfs kv.1 (kv.2.length + func.blocks.length + 1) kv.2 phi)
    init

/-! ### Parameter recovery (`src/ir/params.rs`) -/

/-- Modelled from the spec: the operand lists come from depile's
`HasOperand` trait, which is external to this repository; spec section 4.11
says parameter recovery scans *every operand* of the function, so each
instruction contributes its operand positions. -/
def instrOperands : SSAInstr → List SSAOpd
  | .Binary _ lhs rhs => [lhs, rhs]
  | .Unary _ o => [o]
  | .Branch b =>
    match b.method with
    | .If o => [o]
    | .Unless o => [o]
    | .Unconditional => []
  | .Load o => [o]
  | .Store d a => [d, a]
  | .Move s d => [s, d]
  | .Write o => [o]
  | .InterProc ip =>
    match ip with
    | .PushParam o => [o]
    | .Call _ => []
  | .Extra p => p.vars
  | _ => []

/-- `scan_parameters` (src/ir/params.rs, lines 5-23): a `Var` operand with
positive offset `o` names the parameter at index `o/8 - 2`; an index
outside the parameter table panics (`none`). -/
def scan_parameters (func : SSAFunction) : Option (List String) :=
  func.blocks.foldlM
    (fun params block =>
      block.instructions.foldlM
        (fun params instr =>
          (instrOperands instr).foldlM
            (fun (params : List String) opd =>
              match opd with
              | .Operand (.Var var x) =>
                if 0 < x then
                  let k := x / 8 - 2
                  if 0 ≤ k ∧ k.toNat < params.length then
                    some (params.set k.toNat var)
                  else none
                else some params
              | _ => some params)
            params)
        params)
    (List.replicate func.parameter_count "<unknown>")

/-! ### The phi forge (`src/analysis/phi.rs`) -/

structure PhiForge where
  params : List String
  cfg : SimpleCfg
  domtree : List (Nat × List Nat)
  imm_doms : List (Nat × Option Nat)
  dom_frontier : List (Nat × List Nat)
  phi_cells : List (Nat × List (String × PhiCell))
deriving Repr

/-- `PhiForge::new` (src/analysis/phi.rs, lines 115-128), with the empty
initial `phi_cells` map. -/
def PhiForge.make (func : SSAFunction) : Option PhiForge := do
  let cfg := SimpleCfg.ofBlocks func.entry_block func.blocks
  let domtree := compute_domtree func
  let imm_doms := compute_idom domtree
  let dfs ← compute_df domtree cfg
  let params ← scan_parameters func
  pure ⟨params, cfg, domtree, imm_doms, dfs, []⟩

/-- `block_convert` (src/analysis/converter.rs) maps the stripped kind into
the SSA kind; on the unified instruction type of this embedding it is the
identity. -/
def block_convert (b : SSABlock) : SSABlock := b

/-- `PhiForge::place_phi_placeholder` (src/analysis/phi.rs, lines 187-206):
pan each block so its instructions start at the running index and prepend
one `Nop` per inferred phi slot; `local_var_count` is left 0 (a source
`TODO`). -/
def place_phi_placeholder (forge : PhiForge) (func : SSAFunction) (instr_idx : Nat) :
    SSAFunction :=
  let r := func.blocks.foldl
    (fun (acc : List SSABlock × Nat × Nat) b =>
      let id := acc.2.1
      let i := acc.2.2
      let offset := id - b.first_index
      let block := ((block_convert b).pan (fun x => x + offset)).panning_forward_fill
        (pmGet forge.phi_cells i).length
      (acc.1 ++ [block], id + block.instructions.length, i + 1))
    ([], instr_idx, 0)
  ⟨func.parameter_count, 0, func.entry_block, r.1⟩

/-- `PhiForge::place_phi` (src/analysis/phi.rs, lines 208-220): overwrite
the first `phi_cells[i].len()` instructions of each block with empty phi
placeholders; `none` models the `get_mut(j).unwrap` panic. -/
def place_phi (forge : PhiForge) (func : SSAFunction) : Option SSAFunction := do
  let r ← func.blocks.foldlM
    (fun (acc : List SSABlock × Nat) b => do
      let cnt := (pmGet forge.phi_cells acc.2).length
      if cnt ≤ b.instructions.length then
        let instrs := (List.range cnt).foldl
          (fun ins j => ins.set j (.Extra ⟨[], [], .NOpd⟩))
          b.instructions
        pure (acc.1 ++ [(⟨b.first_index, instrs⟩ : SSABlock)], acc.2 + 1)
      else none)
    ([], 0)
  pure ⟨func.parameter_count, func.local_var_count, func.entry_block, r.1⟩

/-! ### Phi renaming (`PhiForge::rename_phi`, src/analysis/phi.rs, lines
222-272) -/

/-- `push_phi_param` (src/analysis/phi.rs, lines 401-409); `none` models
the `panic!("Not phi instruction.")`. -/
def push_phi_param (instr : SSAInstr) (var : String) (var_idx : Int) (block_idx : Nat) :
    Option SSAInstr :=
  match instr with
  | .Extra p =>
    some (.Extra ⟨p.vars ++ [.Subscribed var var_idx], p.blocks ++ [block_idx], p.dest⟩)
  | _ => none

/-- Step 1 of `visit`: allocate a fresh subscript for each phi cell of the
block (in name order, the `j`-th cell owning the `j`-th instruction slot)
and write the phi destination; `none` models the `panic!("Error")` on a
non-phi slot. -/
def renamePhiDestsGo : List (String × PhiCell) → Nat → List SSAInstr → RenameStack →
    Option (List SSAInstr × RenameStack)
  | [], _, instrs, rs => some (instrs, rs)
  | cell :: rest, j, instrs, rs =>
    let r := rs.request_push cell.1
    match instrs.get? j with
    | some (.Extra p) =>
      renamePhiDestsGo rest (j + 1)
        (instrs.set j (.Extra ⟨p.vars, p.blocks, .Subscribed cell.1 (r.1 : Int)⟩)) r.2
    | _ => none

/-- Step 2 of `visit`: rename every instruction of the block in order. -/
def renameInstrsGo : List SSAInstr → RenameStack → Option (List SSAInstr × RenameStack)
  | [], rs => some ([], rs)
  | i :: rest, rs => do
    let r ← i.rename_by rs
    let t ← renameInstrsGo rest r.2
    some (r.1 :: t.1, t.2)

/-- Step 3 of `visit`, inner loop: append `(Subscribed(var, try_get var),
block_idx)` to each phi of a successor block. -/
def fillSuccPhisGo (block_idx : Nat) : List (String × PhiCell) → Nat → List SSAInstr →
    RenameStack → Option (List SSAInstr × RenameStack)
  | [], _, instrs, rs => some (instrs, rs)
  | cell :: rest, j, instrs, rs =>
    match instrs.get? j with
    | some instr => do
      let tg := rs.try_get cell.1
      let instr1 ← push_phi_param instr cell.1 tg.1 block_idx
      fillSuccPhisGo block_idx rest (j + 1) (instrs.set j instr1) tg.2
    | none => none

/-- Step 3 of `visit`, outer loop over the CFG successors. -/
def fillSuccsGo (forge : PhiForge) (block_idx : Nat) :
    List Nat → List SSABlock → RenameStack → Option (List SSABlock × RenameStack)
  | [], blocks, rs => some (blocks, rs)
  | succ :: rest, blocks, rs =>
    match blocks.get? succ with
    | some sb => do
      let r ← fillSuccPhisGo block_idx (pmGet forge.phi_cells succ) 0 sb.instructions rs
      fillSuccsGo forge block_idx rest (blocks.set succ ⟨sb.first_index, r.1⟩) r.2
    | none => none

/-- Step 4's counter propagation: `for (var, cell) in &mut
rename_stack.var_stacks { cell.counter = rs.var_stacks.get(var).unwrap()
.counter }` — only the keys already present in the *parent's* stack are
updated; keys created inside the child's subtree are not copied back. -/
def propagateCounters (parent child : RenameStack) : Option RenameStack := do
  let l ← parent.var_stacks.mapM
    (fun kv => (child.var_stacks.lookup kv.1).map
      (fun c => (kv.1, (⟨c.counter, kv.2.stack⟩ : RenameStackCell))))
  pure ⟨l⟩

/-- The recursive `visit` of `rename_phi`, fueled by the dominator-tree
depth: steps 1-3 on the block, then recursion on the dominator-tree
children with a cloned stack, propagating only counters back. -/
def visit (forge : PhiForge) (td_tree : List (Nat × List Nat)) :
    Nat → Nat → List SSABlock → RenameStack → Option (List SSABlock × RenameStack)
  | 0, _, _, _ => none
  | fuel + 1, block_idx, blocks, rs =>
    match blocks.get? block_idx with
    | none => none
    | some block => do
      let s1 ← renamePhiDestsGo (pmGet forge.phi_cells block_idx) 0 block.instructions rs
      let s2 ← renameInstrsGo s1.1 s1.2
      let blocks1 := blocks.set block_idx ⟨block.first_index, s2.1⟩
      let s3 ← fillSuccsGo forge block_idx (forge.cfg.get_succs block_idx) blocks1 s2.2
      ((td_tree.lookup block_idx).getD []).foldlM
        (fun (acc : List SSABlock × RenameStack) child => do
          let rc ← visit forge td_tree fuel child acc.1 acc.2
          let rs2 ← propagateCounters acc.2 rc.2
          pure (rc.1, rs2))
        (s3.1, s3.2)

/-- `PhiForge::rename_phi` (src/analysis/phi.rs, lines 222-272): seed every
parameter with subscript 0, then pre-order walk the dominator tree from its
root. -/
def rename_phi (forge : PhiForge) (func : SSAFunction) : Option SSAFunction := do
  let rs0 := forge.params.foldl (fun rs p => (rs.request_push p).2) RenameStack.new
  let td := top_down_domtree forge.domtree forge.imm_doms
  let root ← root_of_domtree forge.domtree
  let r ← visit forge td (func.blocks.length + 1) root func.blocks rs0
  pure ⟨func.parameter_count, func.local_var_count, func.entry_block, r.1⟩

/-- `PhiForge::run_func` (src/analysis/phi.rs, lines 105-113).  (The bare
`forge.top_down_domtree();` statement there discards its result;
`rename_phi` recomputes the child map internally.) -/
def run_func (func : SSAFunction) (instr_idx : Nat) :
    Option (SSAFunction × List String) := do
  let forge0 ← PhiForge.make func
  let cells ← infer_phi func forge0.dom_frontier
  let forge : PhiForge :=
    ⟨forge0.params, forge0.cfg, forge0.domtree, forge0.imm_doms, forge0.dom_frontier, cells⟩
  let func1 := place_phi_placeholder forge func instr_idx
  let func2 ← place_phi forge func1
  let func3 ← rename_phi forge func2
  pure (func3, forge.params)

/-- `PhiForge::run` (src/analysis/phi.rs, lines 85-103): thread the global
instruction index across the functions. -/
def PhiForge_run (funcs : SSAFunctions) :
    Option (SSAFunctions × List (List String)) := do
  let r ← funcs.functions.foldlM
    (fun (acc : Nat × List SSAFunction × List (List String)) func => do
      let fb ← func.blocks.head?
      let curr := max acc.1 fb.first_index
      let fr ← run_func func curr
      let cnt := fr.1.blocks.foldl (fun x b => x + b.instructions.length) 0
      pure (curr + cnt, acc.2.1 ++ [fr.1], acc.2.2 ++ [fr.2]))
    (0, [], [])
  pure (⟨r.2.1, funcs.entry_function⟩, r.2.2)

/-! ### C1: the diamond counter-witness -/

/-- A diamond CFG: entry 0 branches to blocks 1 and 2, which both define
the local variable `z` (frame offset −8) and join in block 3, which reads
`z`.  `z` needs a phi in block 3; the program is well formed (every use of
`z` is preceded by a definition on every path). -/
def diaFunc : SSAFunction :=
  ⟨0, 1, 0,
    [⟨0, [.Branch ⟨.If (.Operand (.Const 1)), 2⟩]⟩,
     ⟨1, [.Move (.Operand (.Const 1)) (.Operand (.Var "z" (-8))),
          .Branch ⟨.Unconditional, 3⟩]⟩,
     ⟨3, [.Move (.Operand (.Const 2)) (.Operand (.Var "z" (-8))),
          .Branch ⟨.Unconditional, 3⟩]⟩,
     ⟨5, [.Write (.Operand (.Var "z" (-8)))]⟩]⟩

def diaFuncs : SSAFunctions := ⟨[diaFunc], 0⟩

def moveDestAt (fns : SSAFunctions) (f b i : Nat) : Option SSAOpd :=
  match ((fns.functions.get? f).bind (fun fn => fn.blocks.get? b)).bind
      (fun blk => blk.instructions.get? i) with
  | some (.Move _ d) => some d
  | _ => none

def phiDestAt (fns : SSAFunctions) (f b i : Nat) : Option SSAOpd :=
  match ((fns.functions.get? f).bind (fun fn => fn.blocks.get? b)).bind
      (fun blk => blk.instructions.get? i) with
  | some (.Extra p) => some p.dest
  | _ => none

/-- C1 (code bug): `PhiForge::run` succeeds on the diamond function, but
the `Move` destinations of blocks 1 and 2 and the phi destination of block
3 are all renamed to the same SSA pair `z$0` — three definitions sharing
`(z, 0)`.  The counter of `z` is first touched only inside the dominator-
tree children of the entry block, and the propagation loop copies back
counters only for keys already in the parent's rename stack, so each
subtree restarts `z`'s counter at 0. -/
theorem C1_duplicate_definitions :
    (PhiForge_run diaFuncs).map
      (fun out => (moveDestAt out.1 0 1 0, moveDestAt out.1 0 2 0, phiDestAt out.1 0 3 0))
    = some (some (.Subscribed "z" 0), some (.Subscribed "z" 0),
        some (.Subscribed "z" 0)) := by
  rfl

end Forgessa
